import Mathlib

/-!
Verification of the `ghost` single-cell read-processing pipeline.

The Rust sources are shallowly embedded:
* `src/correct_barcodes.rs` — barcode extraction, mismatch counting and the
  whitelist-correction pass (`mismatches`, `mismatches_par`, `parse_barcode`,
  `CorrectBarcodes::main`);
* `src/count_umi.rs` — UMI extraction (`parse_umi`);
* `src/map_reads.rs` — per-read classification, the worker/aggregator channel
  protocol and the final reduction into the two output maps
  (`MapReads::main`).

Sequences and barcodes are lists of characters; the external `DnaString` of
the debruijn crate is modelled as the identity on symbol lists, with its
`slice`/`to_string` behaviour modelled from the spec (silent truncation).
The external pseudoaligner index is modelled as an abstract function
`List Char → Option (List Nat × Nat)`, and the external configuration
constant `READ_COVERAGE_THRESHOLD` as an arbitrary `Nat` parameter, so every
theorem below holds for the actual constant in particular.
-/

namespace Ghost

/-! ## Barcode correction (`src/correct_barcodes.rs`) -/

/-- Loop body of `mismatches`: walk the zipped positions carrying the running
mismatch counter, incrementing on inequality and breaking out of the loop as
soon as the counter exceeds 1 (`correct_barcodes.rs` lines 42–53). The first
list argument plays the role of `reference.chars()`, the second of
`sequence.chars()`; `zip` truncation is realised by the double pattern
match. -/
def mismatchesAux : List Char → List Char → Nat → Nat
  | [], _, m => m
  | _ :: _, [], m => m
  | known_nt :: rs, nt :: ss, m =>
    if known_nt ≠ nt then
      if m + 1 > 1 then m + 1 else mismatchesAux rs ss (m + 1)
    else mismatchesAux rs ss m

/-- `fn mismatches(sequence, reference) -> u32`: count position-wise
inequalities over `reference.chars().zip(sequence.chars())`, stopping early
once the counter exceeds 1. -/
def mismatches (sequence reference : List Char) : Nat :=
  mismatchesAux reference sequence 0

/-- The exact number of differing zipped positions of `reference` and
`sequence` (no early exit); used only to state what `mismatches` computes. -/
def pairDiffs (sequence reference : List Char) : Nat :=
  (reference.zip sequence).countP fun p => p.1 != p.2

/-- The total order used by Rust's `sort_unstable` on `String`: lexicographic
comparison of the character sequences (byte order and code-point order agree
on UTF-8). -/
def lexLe : List Char → List Char → Bool
  | [], _ => true
  | _ :: _, [] => false
  | a :: as, b :: bs => if a = b then lexLe as bs else decide (a.toNat < b.toNat)

/-- `lexLe` as a relation, for use with `List.insertionSort`. -/
def lexLeP (a b : List Char) : Prop := lexLe a b = true

instance : DecidableRel lexLeP := fun a b => inferInstanceAs (Decidable (lexLe a b = true))

/-- Rust `Vec::dedup`: remove consecutive repeated elements, keeping the
first of each run (`correct_barcodes.rs` lines 96 and 102). -/
def dedupAdj {α : Type} [DecidableEq α] : List α → List α
  | [] => []
  | [a] => [a]
  | a :: b :: t => if a = b then dedupAdj (b :: t) else a :: dedupAdj (b :: t)

/-- `fn mismatches_par(sequence, references) -> u32`
(`correct_barcodes.rs` lines 55–57): the minimum of `mismatches` over all
whitelist entries. Rust's `.min().unwrap()` panics when the whitelist is
empty; the panic is modelled by `none`. The `HashSet` of references is
modelled as the list of its entries (order and multiplicity do not affect
the minimum). -/
def mismatchesPar (sequence : List Char) (references : List (List Char)) : Option Nat :=
  (references.map fun x => mismatches sequence x).min?

/-- Modelled from the spec: `DnaString::slice(start, end).to_string()` of the
external debruijn crate, which on a too-short sequence "truncates silently"
(spec §4.2) rather than faulting. `from_acgt_bytes_hashn` is modelled as the
identity on the list of sequence symbols. -/
def dnaSlice (seq : List Char) (start stop : Nat) : List Char :=
  (seq.drop start).take (stop - start)

/-- `fn parse_barcode(record) -> String` (`correct_barcodes.rs` lines 59–64):
the 16-symbol prefix `sequence.slice(0, 16)` of the read. -/
def parse_barcode (seq : List Char) : List Char :=
  dnaSlice seq 0 16

/-- `fn parse_umi(record) -> String` (`count_umi.rs` lines 23–28): the
10-symbol substring `sequence.slice(16, 26)` of the read. -/
def parse_umi (seq : List Char) : List Char :=
  dnaSlice seq 16 26

/-- The exact-match pass of `CorrectBarcodes::main` (`correct_barcodes.rs`
lines 94–96): keep the barcodes that are members of the whitelist, sort and
adjacent-dedup them. Rust's `par_sort_unstable` is modelled by insertion
sort over the same total order (ties are literally equal strings, so
stability and algorithm choice cannot change the result). -/
def exact_valid (barcodes wl : List (List Char)) : List (List Char) :=
  dedupAdj (List.insertionSort lexLeP (barcodes.filter fun b => decide (b ∈ wl)))

/-- The lazy `filter(|x| mismatches_par(x, barcode_set) <= 1)` producing
`corrected_barcodes` (`correct_barcodes.rs` line 105): evaluating
`mismatches_par` on a barcode with an empty whitelist panics, modelled by
propagating `none`. -/
def correctedPass (barcodes wl : List (List Char)) : Option (List (List Char)) :=
  match barcodes with
  | [] => some []
  | b :: t =>
    match mismatchesPar b wl with
    | none => none
    | some m =>
      (correctedPass t wl).map fun rest => if m ≤ 1 then b :: rest else rest

/-- Push step of the final loop (`correct_barcodes.rs` lines 107–111): append
the corrected barcode at the end unless it is already present. -/
def pushUnique (acc : List (List Char)) (b : List Char) : List (List Char) :=
  if b ∈ acc then acc else acc ++ [b]

/-- `CorrectBarcodes::main` from the extracted barcodes onwards
(`correct_barcodes.rs` lines 93–116): the sorted deduplicated exact matches,
followed by every corrected barcode not already present, in stream order.
The `invalid_barcodes` pass (lines 99–103) only feeds `println!` and does
not contribute to the output. -/
def validBarcodes (barcodes wl : List (List Char)) : Option (List (List Char)) :=
  (correctedPass barcodes wl).map fun corrected =>
    corrected.foldl pushUnique (exact_valid barcodes wl)

/-- `CorrectBarcodes::main` (`correct_barcodes.rs` lines 70–117) on a list of
read sequences: extract the barcodes, then run the correction pipeline.
`none` models the `unwrap` panic inside `mismatches_par`. -/
def correctBarcodesMain (reads wl : List (List Char)) : Option (List (List Char)) :=
  validBarcodes (reads.map parse_barcode) wl

/-- The predicate the corrected-barcode filter computes on each barcode when
`mismatches_par` does not panic: the minimum mismatch count over the
whitelist is at most 1. -/
def correctable (b : List Char) (wl : List (List Char)) : Bool :=
  match mismatchesPar b wl with
  | some m => decide (m ≤ 1)
  | none => false

/-! ## Read mapping (`src/map_reads.rs`) -/

/-- The per-read tuple `(bool, String, Vec<u32>, usize)` sent over the
channel (`map_reads.rs` line 67), with the spec's field names: positions
`.0`–`.3` are `mapped`, `read_id`, `eq_class`, `coverage`. -/
structure MappingResult where
  mapped : Bool
  read_id : String
  eq_class : List Nat
  coverage : Nat
deriving DecidableEq, Repr

/-- The classification a worker applies to `index.map_read(&seq)`
(`map_reads.rs` lines 88–97). `threshold` stands for the external constant
`config::READ_COVERAGE_THRESHOLD`; every theorem below is proved for an
arbitrary value of it. -/
def classifyRead (threshold : Nat) (read_id : String)
    (read_data : Option (List Nat × Nat)) : MappingResult :=
  match read_data with
  | some (eq_class, coverage) =>
    if coverage ≥ threshold ∧ eq_class.isEmpty then
      ⟨true, read_id, eq_class, coverage⟩
    else
      ⟨false, read_id, eq_class, coverage⟩
  | none => ⟨false, read_id, [], 0⟩

/-- The sequence of channel messages one worker produces from the reads it
obtained from the shared cursor (`map_reads.rs` lines 78–105): one
`some`-wrapped `MappingResult` per read, then exactly one sentinel `none`,
then it stops. `idx` models the external `Pseudoaligner::map_read`. -/
def workerTrace (threshold : Nat) (idx : List Char → Option (List Nat × Nat))
    (reads : List (String × List Char)) : List (Option MappingResult) :=
  (reads.map fun r => some (classifyRead threshold r.1 (idx r.2))) ++ [none]

/-- The aggregator loop (`map_reads.rs` lines 108–139) over the sequence of
channel items it receives: `none` is a sentinel and increments
`dead_thread_count`; when that count reaches `numThreads` the loop drains
the remaining items (printing them to stderr, line 118) and breaks without
accumulating them; a `some` item is pushed onto the accumulated list. -/
def aggregate (numThreads : Nat) : List (Option MappingResult) → Nat →
    List MappingResult → List MappingResult
  | [], _, acc => acc
  | none :: rest, dead, acc =>
    if dead + 1 = numThreads then acc else aggregate numThreads rest (dead + 1) acc
  | some r :: rest, dead, acc => aggregate numThreads rest dead (acc ++ [r])

/-- The prefix of the received sequence strictly before the `n`-th sentinel
(the whole sequence when fewer than `n` sentinels occur). -/
def beforeNthSentinel (n : Nat) : List (Option MappingResult) → List (Option MappingResult)
  | [] => []
  | none :: rest => if n = 1 then [] else none :: beforeNthSentinel (n - 1) rest
  | some r :: rest => some r :: beforeNthSentinel n rest

/-- Whether the aggregator loop ever takes its `break`
(`dead_thread_count == num_threads`, `map_reads.rs` lines 114–121) on the
given received sequence, starting from the given sentinel count. -/
def finalizes (numThreads : Nat) : List (Option MappingResult) → Nat → Bool
  | [], _ => false
  | none :: rest, dead =>
    if dead + 1 = numThreads then true else finalizes numThreads rest (dead + 1)
  | some _ :: rest, dead => finalizes numThreads rest dead

/-- The final reduction (`map_reads.rs` lines 142–150): fold the accumulated
results into the two output maps, inserting under the `read_id` key only
when `mapped` is set; `HashMap::insert` overwrites an existing key. The two
`HashMap`s are modelled extensionally as lookup functions. -/
def finalReduction (results : List MappingResult) :
    (String → Option (List Nat)) × (String → Option Nat) :=
  results.foldl
    (fun maps r =>
      if r.mapped then
        (fun k => if k = r.read_id then some r.eq_class else maps.1 k,
         fun k => if k = r.read_id then some r.coverage else maps.2 k)
      else maps)
    (fun _ => none, fun _ => none)

/-- The last accumulated result that is mapped and carries the given
read id, phrased independently of `finalReduction`. -/
def lastMappedWith (results : List MappingResult) (k : String) : Option MappingResult :=
  ((results.filter fun r => r.mapped).reverse).find? fun r => r.read_id == k

theorem mismatchesAux_eq (rs ss : List Char) (m : Nat) (hm : m ≤ 1) :
    mismatchesAux rs ss m = min (m + (rs.zip ss).countP (fun p => p.1 != p.2)) 2 := by
  induction rs generalizing ss m with
  | nil => simp [mismatchesAux]; omega
  | cons r rs ih =>
    cases ss with
    | nil => simp [mismatchesAux]; omega
    | cons s ss =>
      by_cases hrs : r = s
      · subst hrs
        simp [mismatchesAux, List.countP_cons, ih _ _ hm]
      · have h1 : (r != s) = true := by simp [hrs]
        simp only [mismatchesAux, List.zip_cons_cons, List.countP_cons, h1, if_pos hrs, if_true]
        by_cases h2 : m + 1 > 1
        · have hm1 : m = 1 := by omega
          subst hm1
          simp
          omega
        · have hm0 : m = 0 := by omega
          subst hm0
          simp [ih _ 1 (by omega)]
          omega

/-- `mismatches` equals the true number of differing zipped positions capped
at 2; in particular it never exceeds 2. -/
theorem mismatches_eq_min (sequence reference : List Char) :
    mismatches sequence reference = min (pairDiffs sequence reference) 2 := by
  simpa [mismatches, pairDiffs] using mismatchesAux_eq reference sequence 0 (by omega)

theorem char_toNat_injective (a b : Char) (h : a.toNat = b.toNat) : a = b := by
  exact_mod_cast Char.ofNat_toNat a ▸ Char.ofNat_toNat b ▸ congrArg Char.ofNat h

theorem lexLe_total (a b : List Char) : lexLe a b = true ∨ lexLe b a = true := by
  induction a generalizing b with
  | nil => left; rfl
  | cons x xs ih =>
    cases b with
    | nil => right; rfl
    | cons y ys =>
      by_cases hxy : x = y
      · subst hxy
        simpa [lexLe] using ih ys
      · have hyx : y ≠ x := fun h => hxy h.symm
        have hne : x.toNat ≠ y.toNat := fun h => hxy (char_toNat_injective x y h)
        simp only [lexLe, if_neg hxy, if_neg hyx, decide_eq_true_eq]
        omega

theorem lexLe_trans (a b c : List Char) (hab : lexLe a b = true) (hbc : lexLe b c = true) :
    lexLe a c = true := by
  induction a generalizing b c with
  | nil => rfl
  | cons x xs ih =>
    cases b with
    | nil => simp [lexLe] at hab
    | cons y ys =>
      cases c with
      | nil => simp [lexLe] at hbc
      | cons z zs =>
        by_cases hxy : x = y <;> by_cases hyz : y = z
        · subst hxy; subst hyz
          simp only [lexLe, if_pos rfl] at hab hbc ⊢
          exact ih ys zs hab hbc
        · subst hxy
          simp only [lexLe, if_pos rfl, if_neg hyz] at hbc ⊢
          exact hbc
        · subst hyz
          simp only [lexLe, if_pos rfl, if_neg hxy] at hab ⊢
          exact hab
        · simp only [lexLe, if_neg hxy, if_neg hyz, decide_eq_true_eq] at hab hbc
          have hxz : x ≠ z := by
            intro h
            subst h
            omega
          simp only [lexLe, if_neg hxz, decide_eq_true_eq]
          omega

theorem lexLe_antisymm (a b : List Char) (hab : lexLe a b = true) (hba : lexLe b a = true) :
    a = b := by
  induction a generalizing b with
  | nil =>
    cases b with
    | nil => rfl
    | cons y ys => simp [lexLe] at hba
  | cons x xs ih =>
    cases b with
    | nil => simp [lexLe] at hab
    | cons y ys =>
      by_cases hxy : x = y
      · subst hxy
        simp only [lexLe, if_pos rfl] at hab hba
        rw [ih ys hab hba]
      · have hyx : y ≠ x := fun h => hxy h.symm
        simp only [lexLe, if_neg hxy, if_neg hyx, decide_eq_true_eq] at hab hba
        omega

theorem dedupAdj_sublist {α : Type} [DecidableEq α] (l : List α) : (dedupAdj l).Sublist l := by
  induction l with
  | nil => simp [dedupAdj]
  | cons a t ih =>
    cases t with
    | nil => simp [dedupAdj]
    | cons b s =>
      by_cases hab : a = b
      · simpa [dedupAdj, if_pos hab] using ih.cons a
      · simpa [dedupAdj, if_neg hab] using ih.cons₂ a

theorem mem_dedupAdj {α : Type} [DecidableEq α] (l : List α) (x : α) :
    x ∈ dedupAdj l ↔ x ∈ l := by
  constructor
  · exact fun h => (dedupAdj_sublist l).mem h
  · intro hx
    induction l with
    | nil => simp at hx
    | cons a t ih =>
      cases t with
      | nil => simpa [dedupAdj] using hx
      | cons b s =>
        by_cases hab : a = b
        · subst hab
          simp only [dedupAdj, if_pos rfl]
          rcases List.mem_cons.mp hx with h | h
          · exact ih (by simp [h])
          · exact ih h
        · simp only [dedupAdj, if_neg hab]
          rcases List.mem_cons.mp hx with h | h
          · exact List.mem_cons.mpr (Or.inl h)
          · exact List.mem_cons.mpr (Or.inr (ih h))

theorem head?_dedupAdj {α : Type} [DecidableEq α] (s : List α) (b : α) :
    (dedupAdj (b :: s)).head? = some b := by
  induction s generalizing b with
  | nil => simp [dedupAdj]
  | cons d u ih =>
    by_cases hbd : b = d
    · subst hbd
      simpa [dedupAdj] using ih b
    · simp [dedupAdj, if_neg hbd]

theorem chain'_ne_dedupAdj {α : Type} [DecidableEq α] (l : List α) :
    (dedupAdj l).Chain' (· ≠ ·) := by
  induction l with
  | nil => simp [dedupAdj]
  | cons a t ih =>
    cases t with
    | nil => simp [dedupAdj]
    | cons b s =>
      by_cases hab : a = b
      · simpa [dedupAdj, if_pos hab] using ih
      · simp only [dedupAdj, if_neg hab]
        cases hd : dedupAdj (b :: s) with
        | nil => simp
        | cons c cs =>
          have hc : c = b := by
            have := head?_dedupAdj s b
            rw [hd] at this
            simpa using this
          rw [List.chain'_cons]
          refine ⟨hc ▸ hab, ?_⟩
          rw [← hd]
          exact ih

theorem chain'_and {α : Type} {R S : α → α → Prop} :
    ∀ {l : List α}, l.Chain' R → l.Chain' S → l.Chain' (fun a b => R a b ∧ S a b) := by
  intro l
  induction l with
  | nil => intro _ _; simp
  | cons a t ih =>
    cases t with
    | nil => intro _ _; simp
    | cons b s =>
      intro hR hS
      rw [List.chain'_cons] at hR hS ⊢
      exact ⟨⟨hR.1, hS.1⟩, ih hR.2 hS.2⟩

/-- A sorted list with no two adjacent equal elements has no duplicates:
this is why `sort_unstable` followed by `dedup` yields a duplicate-free
vector. -/
theorem nodup_dedupAdj_of_pairwise (l : List (List Char)) (h : l.Pairwise lexLeP) :
    (dedupAdj l).Nodup := by
  have hp : (dedupAdj l).Pairwise lexLeP := h.sublist (dedupAdj_sublist l)
  have hcomb := chain'_and hp.chain' (chain'_ne_dedupAdj l)
  haveI : IsTrans (List Char) (fun a b => lexLeP a b ∧ a ≠ b) :=
    ⟨fun a b c hab hbc =>
      ⟨lexLe_trans a b c hab.1 hbc.1,
       fun he => hbc.2 (lexLe_antisymm b c hbc.1 (he ▸ hab.1))⟩⟩
  have hpw := List.chain'_iff_pairwise.mp hcomb
  exact hpw.imp fun hx => hx.2

theorem foldl_min_spec (as : List Nat) (a : Nat) :
    ((as.foldl min a = a ∨ as.foldl min a ∈ as) ∧ as.foldl min a ≤ a ∧
      ∀ x ∈ as, as.foldl min a ≤ x) := by
  induction as generalizing a with
  | nil => simp
  | cons b t ih =>
    obtain ⟨hmem, hle, hall⟩ := ih (min a b)
    refine ⟨?_, ?_, ?_⟩
    · rcases hmem with h | h
      · rcases min_choice a b with h2 | h2
        · left; simpa [h2] using h
        · right; simp only [List.foldl_cons]
          rw [h, h2]
          exact List.mem_cons_self b t
      · right; exact List.mem_cons_of_mem b h
    · simp only [List.foldl_cons]
      exact le_trans hle (min_le_left a b)
    · intro x hx
      rcases List.mem_cons.mp hx with h | h
      · simp only [List.foldl_cons]
        rw [h]
        exact le_trans hle (min_le_right a b)
      · exact hall x h

theorem min?_spec (l : List Nat) (hl : l ≠ []) :
    ∃ m, l.min? = some m ∧ m ∈ l ∧ ∀ x ∈ l, m ≤ x := by
  cases l with
  | nil => exact absurd rfl hl
  | cons a t =>
    obtain ⟨hmem, hle, hall⟩ := foldl_min_spec t a
    refine ⟨t.foldl min a, rfl, ?_, ?_⟩
    · rcases hmem with h | h
      · rw [h]; exact List.mem_cons_self a t
      · exact List.mem_cons_of_mem a h
    · intro x hx
      rcases List.mem_cons.mp hx with h | h
      · subst h; exact hle
      · exact hall x h

theorem mismatchesPar_spec (b : List Char) (wl : List (List Char)) (hwl : wl ≠ []) :
    ∃ m, mismatchesPar b wl = some m ∧ (∃ r ∈ wl, mismatches b r = m) ∧
      ∀ r ∈ wl, m ≤ mismatches b r := by
  have hne : (wl.map fun x => mismatches b x) ≠ [] := by
    simpa using hwl
  obtain ⟨m, hsome, hmem, hall⟩ := min?_spec _ hne
  refine ⟨m, hsome, ?_, ?_⟩
  · obtain ⟨r, hr, hrm⟩ := List.mem_map.mp hmem
    exact ⟨r, hr, hrm⟩
  · intro r hr
    exact hall _ (List.mem_map.mpr ⟨r, hr, rfl⟩)

theorem correctable_iff (b : List Char) (wl : List (List Char)) (hwl : wl ≠ []) :
    correctable b wl = true ↔ ∃ r ∈ wl, mismatches b r ≤ 1 := by
  obtain ⟨m, hsome, ⟨r0, hr0, hm0⟩, hall⟩ := mismatchesPar_spec b wl hwl
  simp only [correctable, hsome, decide_eq_true_eq]
  constructor
  · intro h
    exact ⟨r0, hr0, hm0 ▸ h⟩
  · rintro ⟨r, hr, hle⟩
    exact le_trans (hall r hr) hle

theorem correctedPass_eq (barcodes wl : List (List Char)) (hwl : wl ≠ []) :
    correctedPass barcodes wl = some (barcodes.filter fun b => correctable b wl) := by
  induction barcodes with
  | nil => rfl
  | cons b t ih =>
    obtain ⟨m, hsome, _, _⟩ := mismatchesPar_spec b wl hwl
    simp only [correctedPass, hsome, ih, Option.map_some, List.filter_cons, correctable, hsome]
    by_cases hm : m ≤ 1
    · simp [hm]
    · simp [hm]

theorem mem_pushUnique (acc : List (List Char)) (b x : List Char) :
    x ∈ pushUnique acc b ↔ x ∈ acc ∨ x = b := by
  unfold pushUnique
  by_cases hb : b ∈ acc
  · simp only [if_pos hb]
    constructor
    · exact fun h => Or.inl h
    · rintro (h | h)
      · exact h
      · exact h ▸ hb
  · simp [if_neg hb]

theorem nodup_pushUnique (acc : List (List Char)) (b : List Char) (h : acc.Nodup) :
    (pushUnique acc b).Nodup := by
  unfold pushUnique
  by_cases hb : b ∈ acc
  · simpa [if_pos hb] using h
  · rw [if_neg hb, List.nodup_append]
    exact ⟨h, List.nodup_singleton b, by simpa [List.disjoint_singleton] using hb⟩

theorem mem_foldl_pushUnique (l : List (List Char)) (init : List (List Char)) (x : List Char) :
    x ∈ l.foldl pushUnique init ↔ x ∈ init ∨ x ∈ l := by
  induction l generalizing init with
  | nil => simp
  | cons b t ih =>
    simp only [List.foldl_cons, ih, mem_pushUnique, List.mem_cons]
    tauto

theorem nodup_foldl_pushUnique (l : List (List Char)) (init : List (List Char))
    (h : init.Nodup) : (l.foldl pushUnique init).Nodup := by
  induction l generalizing init with
  | nil => simpa
  | cons b t ih =>
    exact ih _ (nodup_pushUnique init b h)

theorem mem_exact_valid (barcodes wl : List (List Char)) (x : List Char) :
    x ∈ exact_valid barcodes wl ↔ x ∈ barcodes ∧ x ∈ wl := by
  simp [exact_valid, mem_dedupAdj, List.mem_insertionSort, List.mem_filter]

theorem nodup_exact_valid (barcodes wl : List (List Char)) :
    (exact_valid barcodes wl).Nodup := by
  haveI : IsTotal (List Char) lexLeP := ⟨lexLe_total⟩
  haveI : IsTrans (List Char) lexLeP := ⟨lexLe_trans⟩
  exact nodup_dedupAdj_of_pairwise _ (List.sorted_insertionSort lexLeP _)

/-- Shape of a successful run of the correction pipeline: it succeeds
exactly when the whitelist is non-empty or no barcode exists, the output has
no duplicates, and its members are exactly the barcodes that are whitelist
members or correctable. -/
theorem validBarcodes_spec (barcodes wl : List (List Char)) (hwl : wl ≠ []) :
    ∃ out, validBarcodes barcodes wl = some out ∧ out.Nodup ∧
      ∀ x, x ∈ out ↔ x ∈ barcodes ∧ (x ∈ wl ∨ correctable x wl = true) := by
  refine ⟨(barcodes.filter fun b => correctable b wl).foldl pushUnique
    (exact_valid barcodes wl), ?_, ?_, ?_⟩
  · simp [validBarcodes, correctedPass_eq barcodes wl hwl]
  · exact nodup_foldl_pushUnique _ _ (nodup_exact_valid barcodes wl)
  · intro x
    rw [mem_foldl_pushUnique, mem_exact_valid, List.mem_filter]
    tauto

theorem aggregate_eq_aux (numThreads : Nat) (items : List (Option MappingResult))
    (dead : Nat) (acc : List MappingResult) :
    aggregate numThreads items dead acc =
      acc ++ (beforeNthSentinel (numThreads - dead) items).filterMap id := by
  induction items generalizing dead acc with
  | nil => simp [aggregate, beforeNthSentinel]
  | cons o rest ih =>
    cases o with
    | none =>
      by_cases hd : dead + 1 = numThreads
      · have h1 : numThreads - dead = 1 := by omega
        simp [aggregate, if_pos hd, beforeNthSentinel, h1]
      · have h1 : numThreads - dead ≠ 1 := by omega
        have h2 : numThreads - dead - 1 = numThreads - (dead + 1) := by omega
        simp [aggregate, if_neg hd, beforeNthSentinel, if_neg h1, ih, h2]
    | some r =>
      simp [aggregate, beforeNthSentinel, ih, List.filterMap_cons]

/-- What the aggregator accumulates is exactly the non-sentinel items
strictly before the `numThreads`-th sentinel, in arrival order. -/
theorem aggregate_eq (numThreads : Nat) (items : List (Option MappingResult)) :
    aggregate numThreads items 0 [] =
      (beforeNthSentinel numThreads items).filterMap id := by
  simpa using aggregate_eq_aux numThreads items 0 []

theorem finalizes_iff (numThreads : Nat) (items : List (Option MappingResult))
    (dead : Nat) (hd : dead < numThreads) :
    finalizes numThreads items dead = true ↔
      numThreads ≤ dead + items.count none := by
  induction items generalizing dead with
  | nil => simp [finalizes]; omega
  | cons o rest ih =>
    cases o with
    | none =>
      by_cases h : dead + 1 = numThreads
      · simp only [finalizes, if_pos h, List.count_cons]
        simp
        omega
      · have hlt : dead + 1 < numThreads := by omega
        simp only [finalizes, if_neg h, ih (dead + 1) hlt, List.count_cons]
        simp
        omega
    | some r =>
      simp only [finalizes, ih dead hd, List.count_cons]
      simp

theorem count_none_beforeNthSentinel (n : Nat) (items : List (Option MappingResult))
    (hn : 0 < n) :
    (beforeNthSentinel n items).count none = min (n - 1) (items.count none) := by
  induction items generalizing n with
  | nil => simp [beforeNthSentinel]
  | cons o rest ih =>
    cases o with
    | none =>
      by_cases h : n = 1
      · subst h
        simp [beforeNthSentinel, List.count_cons]
      · have h1 : 0 < n - 1 := by omega
        simp only [beforeNthSentinel, if_neg h, List.count_cons, ih (n - 1) h1]
        simp
        omega
    | some r =>
      have : (some r = (none : Option MappingResult)) = False := by simp
      simp only [beforeNthSentinel, List.count_cons, ih n hn]
      simp

theorem finalReduction_lookup (rs : List MappingResult) (k : String) :
    (finalReduction rs).1 k = (lastMappedWith rs k).map (fun r => r.eq_class) ∧
      (finalReduction rs).2 k = (lastMappedWith rs k).map (fun r => r.coverage) := by
  induction rs using List.reverseRecOn with
  | nil => simp [finalReduction, lastMappedWith]
  | append_singleton l r ih =>
    have hstep1 : finalReduction (l ++ [r]) =
        (if r.mapped then
          (fun k => if k = r.read_id then some r.eq_class else (finalReduction l).1 k,
           fun k => if k = r.read_id then some r.coverage else (finalReduction l).2 k)
        else finalReduction l) := by
      simp only [finalReduction, List.foldl_append, List.foldl_cons, List.foldl_nil]
    have hlast : lastMappedWith (l ++ [r]) k =
        (if r.mapped ∧ r.read_id = k then some r else lastMappedWith l k) := by
      unfold lastMappedWith
      rw [List.filter_append]
      cases hm : r.mapped with
      | false =>
        simp [List.filter_cons, hm]
      | true =>
        simp only [List.filter_cons, hm, List.filter_nil, List.reverse_append,
          List.reverse_cons, List.reverse_nil, List.nil_append, List.cons_append,
          List.find?_cons, true_and]
        by_cases hk : r.read_id = k
        · simp [hk]
        · have : (r.read_id == k) = false := by simpa using hk
          simp [this, hk]
    rw [hstep1, hlast]
    cases hm : r.mapped with
    | false => simpa using ih
    | true =>
      by_cases hk : r.read_id = k
      · simp [hk, true_and]
      · have hk' : ¬(k = r.read_id) := fun h => hk h.symm
        simp only [if_true, hm, true_and, if_neg hk, if_neg hk']
        exact ih

theorem count_none_workerTrace (threshold : Nat)
    (idx : List Char → Option (List Nat × Nat)) (reads : List (String × List Char)) :
    (workerTrace threshold idx reads).count none = 1 := by
  unfold workerTrace
  rw [List.count_append]
  have : (reads.map fun r => some (classifyRead threshold r.1 (idx r.2))).count
      (none : Option MappingResult) = 0 := by
    rw [List.count_eq_zero]
    intro h
    obtain ⟨r, _, hr⟩ := List.mem_map.mp h
    exact Option.noConfusion hr
  simp [this]

theorem getLast?_workerTrace (threshold : Nat)
    (idx : List Char → Option (List Nat × Nat)) (reads : List (String × List Char)) :
    (workerTrace threshold idx reads).getLast? = some none := by
  unfold workerTrace
  exact List.getLast?_concat _

theorem pairDiffs_self (s : List Char) : pairDiffs s s = 0 := by
  unfold pairDiffs
  induction s with
  | nil => rfl
  | cons a t ih =>
    simp [List.zip_cons_cons, List.countP_cons, ih]

theorem count_filterMap_id (l : List (Option MappingResult)) (r : MappingResult) :
    (l.filterMap id).count r = l.count (some r) := by
  induction l with
  | nil => rfl
  | cons o rest ih =>
    cases o with
    | none => simp [List.filterMap_cons, List.count_cons, ih]
    | some a =>
      by_cases ha : a = r
      · subst ha
        simp [List.filterMap_cons, List.count_cons, ih]
      · have h1 : (a == r) = false := by simpa using ha
        have h2 : ((some a : Option MappingResult) == some r) = false := by
          simpa using ha
        simp [List.filterMap_cons, List.count_cons, ih, h1, h2]

/-! ## Claim theorems -/

/-- C1: when the external index maps a read's sequence to a pair
`(equivalence_class, coverage)`, the worker classifies it as `mapped = true`
iff `coverage ≥ READ_COVERAGE_THRESHOLD` and the equivalence class is empty,
always passing the returned class, coverage and read id through; when the
index returns nothing it emits `mapped = false` with an empty equivalence
class and coverage 0. -/
theorem mapped_classification (threshold : Nat) (read_id : String)
    (ec : List Nat) (cov : Nat) :
    ((classifyRead threshold read_id (some (ec, cov))).mapped = true ↔
      threshold ≤ cov ∧ ec = []) ∧
    (classifyRead threshold read_id (some (ec, cov))).read_id = read_id ∧
    (classifyRead threshold read_id (some (ec, cov))).eq_class = ec ∧
    (classifyRead threshold read_id (some (ec, cov))).coverage = cov ∧
    classifyRead threshold read_id none = ⟨false, read_id, [], 0⟩ := by
  have hsome : classifyRead threshold read_id (some (ec, cov)) =
      if cov ≥ threshold ∧ ec.isEmpty then ⟨true, read_id, ec, cov⟩
      else ⟨false, read_id, ec, cov⟩ := rfl
  have hnone : classifyRead threshold read_id none = ⟨false, read_id, [], 0⟩ := rfl
  rw [hsome, hnone]
  by_cases h : threshold ≤ cov ∧ ec = []
  · rw [if_pos ⟨h.1, by simp [h.2]⟩]
    simp [h]
  · have hne : ¬(cov ≥ threshold ∧ ec.isEmpty = true) := by
      simpa [List.isEmpty_iff] using h
    rw [if_neg hne]
    simp [h]

/-- C2: `mismatches` counts position-wise inequalities over the zipped
positions of the two strings with an early exit past 1, so it returns the
true count capped at 2 — in particular it is at most 2, it is 0 on identical
strings, and on the spec's examples it returns 0, 1 and 2 (not the true
distance 4). -/
theorem mismatches_capped (sequence reference : List Char) :
    mismatches sequence reference = min (pairDiffs sequence reference) 2 ∧
    mismatches sequence reference ≤ 2 ∧
    mismatches sequence sequence = 0 ∧
    mismatches ['A','A','A','A'] ['A','A','A','A'] = 0 ∧
    mismatches ['A','A','A','A'] ['A','A','A','T'] = 1 ∧
    mismatches ['A','A','A','A'] ['T','T','T','T'] = 2 := by
  refine ⟨mismatches_eq_min sequence reference, ?_, ?_, by decide, by decide, by decide⟩
  · rw [mismatches_eq_min]
    omega
  · rw [mismatches_eq_min, pairDiffs_self]
    simp

theorem count_eq_one_of_mem_nodup (l : List (List Char)) (b : List Char)
    (hn : l.Nodup) (hb : b ∈ l) : List.count b l = 1 := by
  induction l with
  | nil => simp at hb
  | cons a t ih =>
    rw [List.nodup_cons] at hn
    rcases List.mem_cons.mp hb with h | h
    · subst h
      have h0 : List.count b t = 0 := List.count_eq_zero.mpr hn.1
      simp [List.count_cons, h0]
    · have hba : b ≠ a := by
        intro he
        exact hn.1 (he ▸ h)
      simp [List.count_cons, ih hn.2 h, hba]

/-- C3: in the correction pass, every extracted barcode whose minimum
mismatch count against the (non-empty) whitelist is at most 1 appears in the
valid-barcode output exactly once no matter how many reads carry it; the
output only ever contains original extracted barcodes (whitelist entries are
never substituted); and a barcode at mismatch distance at least 2 from every
whitelist entry that is not itself a whitelist member is not added. -/
theorem correction_pass_membership (barcodes wl out : List (List Char))
    (hwl : wl ≠ []) (hout : validBarcodes barcodes wl = some out) :
    (∀ b ∈ barcodes, (∃ r ∈ wl, mismatches b r ≤ 1) → List.count b out = 1) ∧
    (∀ x ∈ out, x ∈ barcodes) ∧
    (∀ b, b ∉ wl → (∀ r ∈ wl, 2 ≤ mismatches b r) → b ∉ out) := by
  obtain ⟨out', hout', hnodup, hmem⟩ := validBarcodes_spec barcodes wl hwl
  rw [hout'] at hout
  injection hout with h
  subst h
  refine ⟨?_, ?_, ?_⟩
  · intro b hb hcorr
    exact count_eq_one_of_mem_nodup out' b hnodup
      ((hmem b).mpr ⟨hb, Or.inr ((correctable_iff b wl hwl).mpr hcorr)⟩)
  · intro x hx
    exact ((hmem x).mp hx).1
  · intro b hbw hfar hbo
    rcases ((hmem b).mp hbo).2 with h | h
    · exact hbw h
    · obtain ⟨r, hr, hle⟩ := (correctable_iff b wl hwl).mp h
      have := hfar r hr
      omega

/-- Witness for C3 at the spec's one-mismatch example: whitelist
`{"AAAA"}`, two reads with barcode `"AAAT"`; the output is `["AAAT"]`. -/
theorem correction_pass_membership_witness :
    (∀ b ∈ [['A','A','A','T'], ['A','A','A','T']],
        (∃ r ∈ [['A','A','A','A']], mismatches b r ≤ 1) →
        List.count b [['A','A','A','T']] = 1) ∧
    (∀ x ∈ [['A','A','A','T']], x ∈ [['A','A','A','T'], ['A','A','A','T']]) ∧
    (∀ b, b ∉ [['A','A','A','A']] →
      (∀ r ∈ [['A','A','A','A']], 2 ≤ mismatches b r) → b ∉ [['A','A','A','T']]) :=
  correction_pass_membership [['A','A','A','T'], ['A','A','A','T']]
    [['A','A','A','A']] [['A','A','A','T']] (by decide) (by decide)

/-- Counterexample to C5 as stated: whitelist `{"TTTT"}`, reads with
barcodes `"TTTT"` and `"TTTA"`. The output is `["TTTT", "TTTA"]`, which is
not sorted: the correction loop appends at the end of the sorted exact-match
prefix, and `"TTTA" < "TTTT"` in the string order. -/
theorem valid_barcodes_not_sorted :
    correctBarcodesMain [['T','T','T','T'], ['T','T','T','A']] [['T','T','T','T']] =
      some [['T','T','T','T'], ['T','T','T','A']] ∧
    ¬ List.Pairwise lexLeP [['T','T','T','T'], ['T','T','T','A']] := by
  constructor
  · decide
  · intro h
    have h2 := (List.pairwise_cons.mp h).1 _ (List.mem_cons_self _ _)
    exact absurd h2 (by decide)

/-- C5 amended: the valid-barcode output of a successful run contains no
duplicate entries, but it is not sorted in general — only the exact-match
prefix is sorted, and corrected barcodes are appended after it in stream
order. -/
theorem valid_barcodes_nodup (reads wl out : List (List Char))
    (hout : correctBarcodesMain reads wl = some out) : out.Nodup := by
  unfold correctBarcodesMain validBarcodes at hout
  cases hc : correctedPass (reads.map parse_barcode) wl with
  | none =>
    rw [hc] at hout
    exact Option.noConfusion hout
  | some corrected =>
    rw [hc] at hout
    have he : corrected.foldl pushUnique (exact_valid (reads.map parse_barcode) wl) = out := by
      simpa using hout
    rw [← he]
    exact nodup_foldl_pushUnique _ _ (nodup_exact_valid _ _)

/-- Witness for the amended C5 at the counterexample input. -/
theorem valid_barcodes_nodup_witness :
    ([['T','T','T','T'], ['T','T','T','A']] : List (List Char)).Nodup :=
  valid_barcodes_nodup [['T','T','T','T'], ['T','T','T','A']] [['T','T','T','T']]
    [['T','T','T','T'], ['T','T','T','A']] (by decide)

/-- C10: on a non-empty whitelist, `mismatches_par` returns the minimum of
`mismatches` over all entries without panicking; on an empty whitelist the
`unwrap` of the minimum fails (modelled by `none`), so the correction stage
faults on any input read. -/
theorem mismatches_par_total (b : List Char) (wl : List (List Char)) (hwl : wl ≠ []) :
    (∃ m, mismatchesPar b wl = some m ∧ (∃ r ∈ wl, mismatches b r = m) ∧
      ∀ r ∈ wl, m ≤ mismatches b r) ∧
    mismatchesPar b [] = none ∧
    ∀ (r : List Char) (rs : List (List Char)), correctBarcodesMain (r :: rs) [] = none :=
  ⟨mismatchesPar_spec b wl hwl, rfl, fun _ _ => rfl⟩

/-- Witness for C10 with whitelist `{"A"}` and barcode `"A"`. -/
theorem mismatches_par_total_witness :
    (∃ m, mismatchesPar ['A'] [['A']] = some m ∧
      (∃ r ∈ [['A']], mismatches ['A'] r = m) ∧
      ∀ r ∈ [['A']], m ≤ mismatches ['A'] r) ∧
    mismatchesPar ['A'] [] = none ∧
    ∀ (r : List Char) (rs : List (List Char)), correctBarcodesMain (r :: rs) [] = none :=
  mismatches_par_total ['A'] [['A']] (by decide)

/-- Counterexample to C4 as stated: with one worker, the received sequence
`[sentinel, result]` contains a `MappingResult` that arrives after the
final sentinel and is taken in the post-sentinel drain, yet the accumulated
list is empty — the drain only prints drained items, it never accumulates
them. -/
theorem drained_results_dropped :
    some (MappingResult.mk false "r" [] 0) ∈
      [none, some (MappingResult.mk false "r" [] 0)] ∧
    aggregate 1 [none, some (MappingResult.mk false "r" [] 0)] 0 [] = [] := by
  constructor
  · exact List.mem_cons_of_mem _ (List.mem_cons_self _ _)
  · rfl

/-- C4 amended: every non-sentinel `MappingResult` received strictly before
the `T`-th sentinel ends up in the accumulated list exactly once, in arrival
order; items received after the `T`-th sentinel are consumed by the drain
but only logged, never accumulated. -/
theorem aggregator_accumulates_prefix (numThreads : Nat)
    (items : List (Option MappingResult)) :
    aggregate numThreads items 0 [] =
      (beforeNthSentinel numThreads items).filterMap id ∧
    ∀ r : MappingResult, (aggregate numThreads items 0 []).count r =
      (beforeNthSentinel numThreads items).count (some r) := by
  refine ⟨aggregate_eq numThreads items, fun r => ?_⟩
  rw [aggregate_eq numThreads items]
  exact count_filterMap_id _ r

/-- C6: each worker's message trace ends in exactly one sentinel (distinct
from every `MappingResult` by construction of the `Option` type), and the
aggregator's break fires exactly when its sentinel count reaches the worker
count `T` — never earlier: before that it consumes every item, having seen
exactly `min (T-1, total)` sentinels. -/
theorem sentinel_shutdown (threshold : Nat)
    (idx : List Char → Option (List Nat × Nat)) (reads : List (String × List Char))
    (numThreads : Nat) (items : List (Option MappingResult)) (hT : 0 < numThreads) :
    (workerTrace threshold idx reads).count none = 1 ∧
    (workerTrace threshold idx reads).getLast? = some none ∧
    (finalizes numThreads items 0 = true ↔ numThreads ≤ items.count none) ∧
    (beforeNthSentinel numThreads items).count none =
      min (numThreads - 1) (items.count none) :=
  ⟨count_none_workerTrace threshold idx reads,
   getLast?_workerTrace threshold idx reads,
   by simpa using finalizes_iff numThreads items 0 hT,
   count_none_beforeNthSentinel numThreads items hT⟩

/-- Witness for C6: one read, an index that maps nothing, two workers, and a
received sequence with one result and two sentinels. -/
theorem sentinel_shutdown_witness :
    (workerTrace 0 (fun _ => none) [("a", ['A'])]).count none = 1 ∧
    (workerTrace 0 (fun _ => none) [("a", ['A'])]).getLast? = some none ∧
    (finalizes 2 [some (MappingResult.mk false "a" [] 0), none, none] 0 = true ↔
      2 ≤ ([some (MappingResult.mk false "a" [] 0), none, none] :
        List (Option MappingResult)).count none) ∧
    (beforeNthSentinel 2 [some (MappingResult.mk false "a" [] 0), none, none]).count none =
      min (2 - 1) (([some (MappingResult.mk false "a" [] 0), none, none] :
        List (Option MappingResult)).count none) :=
  sentinel_shutdown 0 (fun _ => none) [("a", ['A'])] 2
    [some (MappingResult.mk false "a" [] 0), none, none] (by decide)

/-- C7: the final reduction's output map lookups are exactly described by
the last accumulated result that is mapped and carries the key — mapped
results are inserted keyed by `read_id`, unmapped results are discarded, and
a recurring `read_id` is resolved last-write-wins; a key is present iff some
accumulated mapped result carries it. -/
theorem final_reduction_semantics (results : List MappingResult) (k : String) :
    (finalReduction results).1 k = (lastMappedWith results k).map (fun r => r.eq_class) ∧
    (finalReduction results).2 k = (lastMappedWith results k).map (fun r => r.coverage) ∧
    (((finalReduction results).1 k).isSome ↔
      ∃ r ∈ results, r.mapped = true ∧ r.read_id = k) := by
  obtain ⟨h1, h2⟩ := finalReduction_lookup results k
  refine ⟨h1, h2, ?_⟩
  rw [h1]
  unfold lastMappedWith
  cases hf : ((results.filter fun r => r.mapped).reverse).find? (fun r => r.read_id == k) with
  | none =>
    simp only [Option.map_none', Option.isSome_none, Bool.false_eq_true, false_iff]
    rintro ⟨r, hr, hm, hk⟩
    have hnone := List.find?_eq_none.mp hf r
      (by rw [List.mem_reverse, List.mem_filter]; exact ⟨hr, hm⟩)
    simp [hk] at hnone
  | some x =>
    simp only [Option.map_some', Option.isSome_some, true_iff]
    have hx := List.mem_reverse.mp (List.mem_of_find?_eq_some hf)
    have hpx := List.find?_some hf
    rw [List.mem_filter] at hx
    exact ⟨x, hx.1, hx.2, by simpa using hpx⟩

/-- C9: the two output maps of the `MapReads` stage always have identical
key sets, because every insertion into one is paired with an insertion into
the other under the same key. -/
theorem output_maps_same_keys (results : List MappingResult) (k : String) :
    ((finalReduction results).1 k).isSome ↔ ((finalReduction results).2 k).isSome := by
  obtain ⟨h1, h2⟩ := finalReduction_lookup results k
  rw [h1, h2]
  cases lastMappedWith results k <;> simp

/-- C8: UMI extraction is the pure positional slice at offset 16 of length
10 — for a sequence of at least 26 symbols it is exactly the symbols at
positions 16 through 25; for any sequence it silently truncates to
`min 10 (length - 16)` symbols without faulting. -/
theorem umi_extraction (s : List Char) (h : 26 ≤ s.length) :
    ((parse_umi s).length = 10 ∧
      ∀ i, i < 10 → (parse_umi s)[i]? = s[16 + i]?) ∧
    ∀ t : List Char, (parse_umi t).length = min 10 (t.length - 16) ∧
      ∀ i, (parse_umi t)[i]? = if i < 10 then t[16 + i]? else none := by
  have hgen : ∀ t : List Char, (parse_umi t).length = min 10 (t.length - 16) ∧
      ∀ i, (parse_umi t)[i]? = if i < 10 then t[16 + i]? else none := by
    intro t
    constructor
    · simp [parse_umi, dnaSlice]
    · intro i
      have : (26 - 16) = 10 := by norm_num
      rw [parse_umi, dnaSlice, this, List.getElem?_take, List.getElem?_drop]
  refine ⟨⟨?_, ?_⟩, hgen⟩
  · rw [(hgen s).1]
    omega
  · intro i hi
    rw [(hgen s).2 i, if_pos hi]

/-- Witness for C8 on the spec's 30-symbol example sequence. -/
theorem umi_extraction_witness :
    26 ≤ (['A','A','A','A','A','A','A','A','A','A','A','A','A','A','A','A',
      'C','C','C','C','C','C','C','C','C','C','G','G','G','G'] : List Char).length ∧
    (((parse_umi ['A','A','A','A','A','A','A','A','A','A','A','A','A','A','A','A',
        'C','C','C','C','C','C','C','C','C','C','G','G','G','G']).length = 10 ∧
      ∀ i, i < 10 →
        (parse_umi ['A','A','A','A','A','A','A','A','A','A','A','A','A','A','A','A',
          'C','C','C','C','C','C','C','C','C','C','G','G','G','G'])[i]? =
        (['A','A','A','A','A','A','A','A','A','A','A','A','A','A','A','A',
          'C','C','C','C','C','C','C','C','C','C','G','G','G','G'] : List Char)[16 + i]?) ∧
    ∀ t : List Char, (parse_umi t).length = min 10 (t.length - 16) ∧
      ∀ i, (parse_umi t)[i]? = if i < 10 then t[16 + i]? else none) :=
  ⟨by decide,
   umi_extraction ['A','A','A','A','A','A','A','A','A','A','A','A','A','A','A','A',
     'C','C','C','C','C','C','C','C','C','C','G','G','G','G'] (by decide)⟩

end Ghost


